import Mathlib

/-! Verification of the `quest-gen` command of the quest-gen repository
(`source/commands/quest-gen.ts`).

Strings are modelled as `List Char`.  JavaScript string operations used by
the code are translated as follows:

* `String.prototype.trim()` removes JS whitespace from both ends; we model
  the whitespace class by the ASCII whitespace characters that can occur in
  document text (space, tab, newline, carriage return, vertical tab, form
  feed).
* `.replace(/\n{2,}/g, "\n")` replaces every maximal run of two or more
  newline characters by a single newline; single newlines are untouched, so
  the overall effect is that every maximal run of newlines becomes one
  newline (`collapseNewlines`).
* `.replace(/^\d+\.\s+/, "")` strips a leading enumeration marker: one or
  more digits, a literal dot, then one or more whitespace characters
  (`stripMarker`).  Regex backtracking cannot produce any other match: the
  maximal leading digit run must be followed by the dot, since any shorter
  digit run is followed by a digit.
* `.split("\n")` splits on single newline characters keeping empty
  segments (`splitNL`).
* `.replace(pat, rep)` with a plain string pattern replaces the first
  occurrence only (`replaceFirst`).  JS `$`-substitution sequences in the
  replacement string are not modelled; no input considered here contains
  them.
-/

namespace QuestGen

/-- JS whitespace characters relevant here (argument of `trim` / `\s`). -/
def isWS (c : Char) : Bool :=
  c = ' ' || c = '\t' || c = '\n' || c = '\r' || c = '\x0B' || c = '\x0C'

/-- ASCII digit test, the `\d` character class. -/
def isDigitCh (c : Char) : Bool :=
  '0' ≤ c && c ≤ '9'

/-- Left part of JS `trim`. -/
def trimLeft (l : List Char) : List Char :=
  l.dropWhile isWS

/-- Right part of JS `trim`. -/
def trimRight (l : List Char) : List Char :=
  ((l.reverse).dropWhile isWS).reverse

/-- JS `String.prototype.trim`. -/
def trim (l : List Char) : List Char :=
  trimRight (trimLeft l)

/-- Worker for `collapseNewlines`; the flag records whether the previous
kept character was a newline (i.e. we are inside a newline run). -/
def collapseAux : Bool → List Char → List Char
  | _, [] => []
  | b, c :: cs =>
    if c = '\n' then
      if b then collapseAux true cs else '\n' :: collapseAux true cs
    else
      c :: collapseAux false cs

/-- JS `.replace(/\n{2,}/g, "\n")`: every maximal run of newlines becomes a
single newline. -/
def collapseNewlines (l : List Char) : List Char :=
  collapseAux false l

/-- The preprocessor applied to one document content string
(`quest-gen.ts` line 170): `content.replace(/\n{2,}/g, "\n").trim()`. -/
def preProcess (l : List Char) : List Char :=
  trim (collapseNewlines l)

/-- JS `.split("\n")`: split at each newline, keeping empty segments. -/
def splitNL : List Char → List (List Char)
  | [] => [[]]
  | c :: cs =>
    if c = '\n' then [] :: splitNL cs
    else
      match splitNL cs with
      | [] => [[c]]
      | s :: rest => (c :: s) :: rest

/-- JS `.replace(/^\d+\.\s+/, "")` on one segment: strip a leading marker
of one or more digits, a dot, and one or more whitespace characters. -/
def stripMarker (l : List Char) : List Char :=
  let ds := l.takeWhile isDigitCh
  let rest := l.drop ds.length
  if ds.isEmpty then l
  else if rest.head? = some '.' then
    if ((rest.tail).takeWhile isWS).isEmpty then l else (rest.tail).dropWhile isWS
  else l

/-- Per-segment cleaning of the question parser (`quest-gen.ts` lines
290-295): `question.trim().replace(/\n{2,}/g, "\n").replace(/^\d+\.\s+/, "")`. -/
def cleanSegment (l : List Char) : List Char :=
  stripMarker (collapseNewlines (trim l))

/-- The question parser (`quest-gen.ts` lines 288-297): split the raw
completion on newlines, clean each segment, keep the non-empty ones. -/
def parseQuestions (raw : List Char) : List (List Char) :=
  ((splitNL raw).map cleanSegment).filter (fun q => q.length ≠ 0)

/-- The question parser as §4.5 of the spec words it: split on newline,
trim each segment, strip a leading enumeration marker, discard empty
segments — without the collapse step, which the spec calls a defensive
no-op post-split. -/
def parseQuestionsSpec (raw : List Char) : List (List Char) :=
  ((splitNL raw).map (fun s => stripMarker (trim s))).filter (fun q => q.length ≠ 0)

/-! Section: Data model

A langchain `Document` is `{ pageContent: string, metadata: Record<string, any> }`.
Cache entries are produced by `JSON.stringify` and consumed by `JSON.parse`;
we model serialization at the level of JSON values (`JVal`) rather than byte
strings: a stored blob is `some jv` when its bytes parse to the JSON value
`jv`, and `none` when `JSON.parse` would throw on it ("unparsable").
`JSON.parse` performs no shape validation (the code casts `as Document[]`);
every value actually written by this program is `encodeDocs docs`, whose
decoding always succeeds, so on states reachable through the modelled
operations decoding is exact.
-/

/-- A JSON value.  Numbers are modelled as integers; the metadata the
loaders produce (source file name, page numbers) only uses these forms. -/
inductive JVal where
  | jnull : JVal
  | jbool : Bool → JVal
  | jnum : Int → JVal
  | jstr : List Char → JVal
  | jarr : List JVal → JVal
  | jobj : List (String × JVal) → JVal

/-- A loaded document: `pageContent` plus `metadata`. -/
structure Document where
  pageContent : List Char
  metadata : List (String × JVal)

/-- Model of `JSON.stringify` of one document, at the JSON-value level. -/
def encodeDoc (d : Document) : JVal :=
  .jobj [("pageContent", .jstr d.pageContent), ("metadata", .jobj d.metadata)]

/-- Model of `JSON.stringify` of a document array. -/
def encodeDocs (docs : List Document) : JVal :=
  .jarr (docs.map encodeDoc)

/-- Read one document back from a JSON value. -/
def decodeDoc : JVal → Option Document
  | .jobj [("pageContent", .jstr pc), ("metadata", .jobj md)] => some ⟨pc, md⟩
  | _ => none

/-- Read a list of documents back from a list of JSON values. -/
def decodeDocList : List JVal → Option (List Document)
  | [] => some []
  | x :: xs =>
    match decodeDoc x, decodeDocList xs with
    | some d, some ds => some (d :: ds)
    | _, _ => none

/-- Read a document array back from a JSON value (`JSON.parse` result). -/
def decodeDocs : JVal → Option (List Document)
  | .jarr xs => decodeDocList xs
  | _ => none

/-- The temporary-file cache: an association from fingerprint to stored
blob.  `writeFile` overwrites, which the cons-on-put / first-match-on-get
discipline reproduces. -/
def CacheStore : Type := List (String × Option JVal)

/-- Model of `cacheTMP` (`quest-gen.ts` lines 179-181): serialize the documents and
write them under the fingerprint key. -/
def cachePut (st : CacheStore) (f : String) (docs : List Document) : CacheStore :=
  (f, some (encodeDocs docs)) :: st

/-- The cache read used by `loadDocuments` (lines 248-254): `readTMP` then
`JSON.parse`, with both "missing file" and "unparsable content" surfacing
as a miss (`none`) because the surrounding `try`/`catch` swallows the
error. -/
def cacheGet (st : CacheStore) (f : String) : Option (List Document) :=
  match st.lookup f with
  | some (some jv) => decodeDocs jv
  | some none => none
  | none => none

/-- The preprocessor over a document set (`preProcessDocuments`,
lines 165-172): rewrite each document's `pageContent`, keep its metadata. -/
def preProcessDocuments (docs : List Document) : List Document :=
  docs.map (fun d => { d with pageContent := preProcess d.pageContent })

/-- Model of `loadDocuments` (lines 227-270), with the external loader's output
passed in as `rawDocs` and the directory fingerprint as `fp`.  Returns the
documents together with the cache store after the run. -/
def loadDocuments (cacheEnabled : Bool) (rawDocs : List Document) (fp : String)
    (st : CacheStore) : List Document × CacheStore :=
  if cacheEnabled = false then
    (preProcessDocuments rawDocs, st)
  else
    match cacheGet st fp with
    | some docs => (docs, st)
    | none => (preProcessDocuments rawDocs, cachePut st fp (preProcessDocuments rawDocs))

/-! Section: Directory fingerprint

`getDirectoryHash` (lines 206-220) enumerates all files under the
directory with `glob(resolve(path, "**/*"))`.  Because the glob pattern is
absolute, the matches are absolute paths, so the `file` component of each
`` `${file}:${mtimeMs}` `` pair is `dir ++ "/" ++ relativePath` (and the
`resolve(path, file)` in the `stat` call is the identity on it).  A
directory is modelled by its location `dir` plus the enumerated list of
file entries; `mtimeMs` is modelled as a natural number of milliseconds
rendered in decimal, as JS string interpolation renders it.  The digest
(`createHash("md5")`) is an external primitive and enters the model as a
function parameter `h`; statements that need distinct digests for distinct
inputs assume `h` injective (for MD5 this is the standard no-collision
reading the spec intends by "changes the fingerprint").
-/

/-- One file visible to the fingerprint enumeration: its path relative to
the target directory, its modification time, and its content (which the
fingerprint must not depend on). -/
structure FileEntry where
  relPath : List Char
  mtimeMs : Nat
  content : List Char

/-- Decimal digit to character. -/
def digitCh : Nat → Char
  | 0 => '0' | 1 => '1' | 2 => '2' | 3 => '3' | 4 => '4'
  | 5 => '5' | 6 => '6' | 7 => '7' | 8 => '8' | _ => '9'

/-- Character back to decimal digit. -/
def chDigit (c : Char) : Nat :=
  c.toNat - 48

/-- Little-endian decimal digits of `n`, with structural fuel (`n` itself
bounds the number of digits). -/
def natToCharsAux : Nat → Nat → List Char
  | 0, _ => []
  | _ + 1, 0 => []
  | fuel + 1, n + 1 => digitCh ((n + 1) % 10) :: natToCharsAux fuel ((n + 1) / 10)

/-- Decimal rendering of a natural number, as JS renders an integral
number in a template string. -/
def natToChars (n : Nat) : List Char :=
  if n = 0 then ['0'] else (natToCharsAux n n).reverse

/-- Inverse of `natToChars` on its image. -/
def charsToNat (l : List Char) : Nat :=
  Nat.ofDigits 10 ((l.map chDigit).reverse)

/-- The part of a file entry the fingerprint may depend on: relative path
and modification time. -/
def keyOf (e : FileEntry) : List Char × Nat :=
  (e.relPath, e.mtimeMs)

/-- The absolute path glob reports for a file: directory plus separator
plus relative path. -/
def absPath (dir : List Char) (rel : List Char) : List Char :=
  dir ++ '/' :: rel

/-- The `` `${file}:${mtimeMs}` `` component built for one file
(line 215). -/
def fileInfo (dir : List Char) (e : FileEntry) : List Char :=
  absPath dir e.relPath ++ ':' :: natToChars e.mtimeMs

/-- Tail of `Array.prototype.join(",")`: each further element preceded by
a comma. -/
def joinCommaTail : List (List Char) → List Char
  | [] => []
  | x :: xs => ',' :: (x ++ joinCommaTail xs)

/-- Model of `fileInfos.join(",")`. -/
def joinComma : List (List Char) → List Char
  | [] => []
  | x :: xs => x ++ joinCommaTail xs

/-- The string handed to the digest by `getDirectoryHash` (line 219). -/
def getDirectoryHashInput (dir : List Char) (entries : List FileEntry) : List Char :=
  joinComma (entries.map (fileInfo dir))

/-- Model of `getDirectoryHash` with the digest `h` abstracted. -/
def getDirectoryHash (h : List Char → List Char) (dir : List Char)
    (entries : List FileEntry) : List Char :=
  h (getDirectoryHashInput dir entries)

/-! Section: Prompt construction and the batch runner

`execute` (lines 90-158) launches one task per document with
`Promise.all(documents.map(...))`.  The event loop is single threaded, so
the post-completion work of each task (push, rewrite of the output file)
runs atomically in the order in which the completion calls resolve; that
resolution order is the `order` parameter below, a permutation of the
document indices.  The Completion Client is the external function `llm`
from prompt to either raw completion text or a completion error.
`Promise.all` rejects as soon as any task rejects, so the closing
`spinner.succeed` summary (line 153) is reached only when every task
succeeded.
-/

/-- Model of `PROMPT_TEMPLATE` (lines 49-50); its documented placeholders are
`{document}` and `{numQuestions}`. -/
def promptTemplate : List Char :=
  ("Expert Question Generator, style of Gladwell & Pink. Analyze: \"{document}\", generate {numQuestions} diverse, comprehensive questions, adjustable complexity, for students to professionals. Skip with a single \n. No answers.").toList

/-- JS `String.prototype.replace` with a plain-string pattern: replace the
first occurrence of `pat` by `rep`. -/
def replaceFirst : List Char → List Char → List Char → List Char
  | [], pat, rep => if pat.isEmpty then rep else []
  | c :: cs, pat, rep =>
    if pat.isPrefixOf (c :: cs) then rep ++ (c :: cs).drop pat.length
    else c :: replaceFirst cs pat rep

/-- The prompt `generateQuestions` actually builds (lines 283-286): it
replaces `{document}` with the content, then replaces the pattern
`{questions}` — not the template's `{numQuestions}` placeholder — with the
question target. -/
def buildPrompt (content : List Char) (n : Nat) : List Char :=
  replaceFirst (replaceFirst promptTemplate ("{document}").toList content)
    ("{questions}").toList (natToChars n)

/-- Modelled from the spec: the substitution §4.6 describes, which fills
the template's own question-count placeholder `{numQuestions}` (the
in-code documentation of `PROMPT_TEMPLATE` names the same placeholder). -/
def buildPromptSpec (content : List Char) (n : Nat) : List Char :=
  replaceFirst (replaceFirst promptTemplate ("{document}").toList content)
    ("{numQuestions}").toList (natToChars n)

/-- Substring test: does `pat` occur inside `s`? -/
def hasSub (pat : List Char) : List Char → Bool
  | [] => pat.isEmpty
  | c :: cs => pat.isPrefixOf (c :: cs) || hasSub pat cs

/-- Model of `generateQuestions` (lines 278-298): build the prompt, call the
completion client, parse the raw completion into questions.  A failing
completion call rejects the task. -/
def generateQuestions (llm : List Char → Except Unit (List Char)) (d : Document)
    (n : Nat) : Except Unit (List (List Char)) :=
  match llm (buildPrompt d.pageContent n) with
  | .ok raw => .ok (parseQuestions raw)
  | .error e => .error e

/-- State of one `execute` run: the shared `questions` array, the last
content written to the output file (`none` before the first write), and
how many tasks have rejected. -/
structure BatchState where
  questions : List (List (List Char))
  fileContent : Option (List (List (List Char)))
  failures : Nat

/-- The post-completion work of the task for document index `i`
(lines 134-150): on success push the document's questions and rewrite the
output file with the whole array; on failure the task rejects before the
push, leaving the state unchanged apart from the failure count. -/
def batchStep (docs : List Document) (llm : List Char → Except Unit (List Char))
    (n : Nat) (st : BatchState) (i : Nat) : BatchState :=
  match docs[i]? with
  | none => st
  | some d =>
    match generateQuestions llm d n with
    | .ok qs =>
        { questions := st.questions ++ [qs],
          fileContent := some (st.questions ++ [qs]),
          failures := st.failures }
    | .error _ => { st with failures := st.failures + 1 }

/-- Run all generation tasks, resolving in completion order `order`. -/
def runBatch (docs : List Document) (llm : List Char → Except Unit (List Char))
    (n : Nat) (order : List Nat) : BatchState :=
  order.foldl (batchStep docs llm n) ⟨[], none, 0⟩

/-- The `spinner.succeed` summary (lines 153-157): total question count
and document count, printed only when `Promise.all` resolved, i.e. when no
task failed.  There is no summary path for a run with failures. -/
def batchSummary (docs : List Document) (llm : List Char → Except Unit (List Char))
    (n : Nat) (order : List Nat) : Option (Nat × Nat) :=
  let st := runBatch docs llm n order
  if st.failures = 0 then some ((st.questions.map List.length).sum, docs.length)
  else none

/-- Value of a generation result, with `[]` for a rejected task (used only
to describe successful tasks). -/
def okOr : Except Unit (List (List Char)) → List (List Char)
  | .ok qs => qs
  | .error _ => []

/-- The per-document question list the task for index `i` produces when it
succeeds (`[]` out of range or on failure; used only to describe
successful runs). -/
def genResultAt (docs : List Document) (llm : List Char → Except Unit (List Char))
    (n : Nat) (i : Nat) : List (List Char) :=
  match docs[i]? with
  | some d => okOr (generateQuestions llm d n)
  | none => []

/-- The question list the task for index `i` pushes, `none` when the task
pushes nothing (completion failure, or index out of range). -/
def okResultAt (docs : List Document) (llm : List Char → Except Unit (List Char))
    (n : Nat) (i : Nat) : Option (List (List Char)) :=
  match docs[i]? with
  | some d =>
    match generateQuestions llm d n with
    | .ok qs => some qs
    | .error _ => none
  | none => none

/-- Does the task for index `i` reject? -/
def taskFails (docs : List Document) (llm : List Char → Except Unit (List Char))
    (n : Nat) (i : Nat) : Bool :=
  match docs[i]? with
  | some d =>
    match generateQuestions llm d n with
    | .ok _ => false
    | .error _ => true
  | none => false

/-! Section: Concrete sample inputs used by witnesses and counterexamples
-/

/-- Sample document 0. -/
def sampleDoc0 : Document := ⟨("doc zero.").toList, []⟩

/-- Sample document 1. -/
def sampleDoc1 : Document := ⟨("doc one.").toList, []⟩

/-- Sample document 2. -/
def sampleDoc2 : Document := ⟨("doc two.").toList, []⟩

/-- A completion client that answers every prompt, with distinguishable
answers for document 0's prompt and the rest. -/
def llmAllOk : List Char → Except Unit (List Char) :=
  fun p => .ok (if hasSub (("doc zero.").toList) p then ("1. A?\n").toList
                else ("1. B?\n").toList)

/-- A completion client that fails exactly on prompts built from document
1's content and answers the rest. -/
def llmFailDoc1 : List Char → Except Unit (List Char) :=
  fun p => if hasSub (("doc one.").toList) p then .error ()
           else .ok ("1. Q?\n").toList

/-- A sample file entry. -/
def sampleEntry : FileEntry := ⟨("notes.txt").toList, 1700000000000, ("alpha").toList⟩

/-- Entry `sampleEntry` with a different modification time. -/
def sampleEntryLater : FileEntry := ⟨("notes.txt").toList, 1700000000001, ("alpha").toList⟩

/-- Entry `sampleEntry` with different content but the same modification time. -/
def sampleEntryEdited : FileEntry := ⟨("notes.txt").toList, 1700000000000, ("beta").toList⟩

end QuestGen

namespace QuestGen

example : parseQuestions ("1. What is X?\n\n2. Why Y?\n").toList =
    [("What is X?").toList, ("Why Y?").toList] := by decide

example : parseQuestions ("\n\n").toList = [] := by decide

example : preProcess (" a\n\n\nb ").toList = ("a\nb").toList := by decide

/-! Section: Newline-run and trimming lemmas (preprocessor idempotence)
-/

/-- No two adjacent characters are both newlines. -/
def NoNLRun (l : List Char) : Prop :=
  l.Chain' (fun a b => ¬(a = '\n' ∧ b = '\n'))

lemma head_collapseAux_true (l : List Char) :
    (collapseAux true l).head? ≠ some '\n' := by
  induction l with
  | nil => simp [collapseAux]
  | cons c cs ih =>
    by_cases hc : c = '\n'
    · simpa [collapseAux, hc] using ih
    · simp [collapseAux, hc]

lemma noNLRun_collapseAux (l : List Char) : ∀ b, NoNLRun (collapseAux b l) := by
  induction l with
  | nil => intro b; simp [collapseAux, NoNLRun]
  | cons c cs ih =>
    intro b
    by_cases hc : c = '\n'
    · cases b with
      | true => simpa [collapseAux, hc] using ih true
      | false =>
        simp only [collapseAux, hc, if_pos, if_neg]
        refine List.chain'_cons'.mpr ⟨?_, ih true⟩
        intro y hy hcontra
        exact head_collapseAux_true cs (by rw [hy, hcontra.2])
    · simp only [collapseAux, hc, if_neg]
      refine List.chain'_cons'.mpr ⟨?_, ih false⟩
      intro y _ hcontra
      exact hc hcontra.1

lemma collapseAux_eq_self (l : List Char) :
    ∀ b, NoNLRun l → (b = true → l.head? ≠ some '\n') → collapseAux b l = l := by
  induction l with
  | nil => intro b _ _; cases b <;> rfl
  | cons c cs ih =>
    intro b hl hb
    obtain ⟨hhead, htail⟩ := List.chain'_cons'.mp hl
    by_cases hc : c = '\n'
    · cases b with
      | true => exact absurd (by simp [hc]) (hb rfl)
      | false =>
        rw [show collapseAux false (c :: cs) = '\n' :: collapseAux true cs from by
          simp [collapseAux, hc]]
        rw [hc]
        congr 1
        apply ih true htail
        intro _ hcs
        cases hy : cs.head? with
        | none => simp [hy] at hcs
        | some y =>
          rw [hy] at hcs
          exact hhead y hy ⟨hc, Option.some.inj hcs⟩
    · rw [show collapseAux b (c :: cs) = c :: collapseAux false cs from by
        simp [collapseAux, hc]]
      rw [ih false htail (by simp)]

lemma collapseNewlines_eq_self (l : List Char) (h : NoNLRun l) :
    collapseNewlines l = l :=
  collapseAux_eq_self l false h (by simp)

lemma noNLRun_reverse (l : List Char) (h : NoNLRun l) : NoNLRun l.reverse :=
  List.chain'_reverse.mpr (h.imp fun _ _ hab => fun hba => hab ⟨hba.2, hba.1⟩)

lemma noNLRun_dropWhile (p : Char → Bool) (l : List Char) (h : NoNLRun l) :
    NoNLRun (l.dropWhile p) :=
  h.suffix (List.dropWhile_suffix p)

lemma noNLRun_trim (l : List Char) (h : NoNLRun l) : NoNLRun (trim l) := by
  unfold trim trimRight trimLeft
  exact noNLRun_reverse _ (noNLRun_dropWhile _ _ (noNLRun_reverse _ (noNLRun_dropWhile _ _ h)))

lemma dropWhile_append_singleton_of_neg {p : Char → Bool} {c : Char}
    (hc : p c = false) (l : List Char) :
    (l ++ [c]).dropWhile p = l.dropWhile p ++ [c] := by
  induction l with
  | nil => simp [List.dropWhile, hc]
  | cons a l ih =>
    by_cases ha : p a
    · simp [List.dropWhile_cons, ha, ih]
    · simp [List.dropWhile_cons, ha]

lemma trimRight_cons_of_neg {c : Char} (hc : isWS c = false) (cs : List Char) :
    trimRight (c :: cs) = c :: trimRight cs := by
  unfold trimRight
  rw [List.reverse_cons, dropWhile_append_singleton_of_neg hc, List.reverse_append]
  rfl

lemma trimLeft_trim (l : List Char) : trimLeft (trim l) = trim l := by
  unfold trim
  rcases hm : trimLeft l with - | ⟨c, cs⟩
  · rfl
  · have hfix : (trimLeft l).dropWhile isWS = trimLeft l := List.dropWhile_idempotent isWS l
    rw [hm] at hfix
    have hc : isWS c = false := by
      have := List.dropWhile_eq_self_iff.mp hfix (by simp)
      simpa using this
    rw [trimRight_cons_of_neg hc]
    unfold trimLeft
    rw [List.dropWhile_cons_of_neg (by simp [hc])]

lemma trimRight_trimRight (l : List Char) : trimRight (trimRight l) = trimRight l := by
  unfold trimRight
  rw [List.reverse_reverse, List.dropWhile_idempotent]

lemma trim_trim (l : List Char) : trim (trim l) = trim l := by
  calc trim (trim l) = trimRight (trimLeft (trim l)) := rfl
    _ = trimRight (trim l) := by rw [trimLeft_trim]
    _ = trimRight (trimRight (trimLeft l)) := rfl
    _ = trimRight (trimLeft l) := trimRight_trimRight _
    _ = trim l := rfl

/-- C5. The preprocessor — collapse every run of two or more newlines
into one newline, then trim — is idempotent: `preProcess (preProcess x) =
preProcess x` for every string `x`. -/
theorem preProcess_idempotent : ∀ x : List Char, preProcess (preProcess x) = preProcess x := by
  intro x
  have h1 : NoNLRun (collapseNewlines x) := noNLRun_collapseAux x false
  have h2 : NoNLRun (preProcess x) := noNLRun_trim _ h1
  calc preProcess (preProcess x) = trim (collapseNewlines (preProcess x)) := rfl
    _ = trim (preProcess x) := by rw [collapseNewlines_eq_self _ h2]
    _ = trim (trim (collapseNewlines x)) := rfl
    _ = trim (collapseNewlines x) := trim_trim _
    _ = preProcess x := rfl

/-! Section: Question-parser lemmas
-/

lemma mem_splitNL_no_newline (raw : List Char) :
    ∀ s ∈ splitNL raw, '\n' ∉ s := by
  induction raw with
  | nil =>
    intro s hs
    simp only [splitNL, List.mem_singleton] at hs
    simp [hs]
  | cons c cs ih =>
    intro s hs
    by_cases hc : c = '\n'
    · rw [show splitNL (c :: cs) = [] :: splitNL cs from by simp [splitNL, hc]] at hs
      rcases List.mem_cons.mp hs with h | h
      · simp [h]
      · exact ih s h
    · rw [show splitNL (c :: cs) =
          (match splitNL cs with
           | [] => [[c]]
           | s :: rest => (c :: s) :: rest) from by simp [splitNL, hc]] at hs
      rcases hsplit : splitNL cs with - | ⟨s₀, rest⟩
      · rw [hsplit] at hs
        simp only [List.mem_singleton] at hs
        intro hmem
        rw [hs] at hmem
        rcases List.mem_singleton.mp hmem with h
        exact hc h.symm
      · rw [hsplit] at hs
        rcases List.mem_cons.mp hs with h | h
        · intro hmem
          rw [h] at hmem
          rcases List.mem_cons.mp hmem with h2 | h2
          · exact hc h2.symm
          · exact ih s₀ (hsplit ▸ List.mem_cons_self s₀ rest) h2
        · exact ih s (hsplit ▸ List.mem_cons_of_mem s₀ h)

lemma mem_of_mem_trim {a : Char} {l : List Char} (h : a ∈ trim l) : a ∈ l := by
  unfold trim trimRight trimLeft at h
  rw [List.mem_reverse] at h
  have h2 := (List.dropWhile_sublist isWS).subset h
  rw [List.mem_reverse] at h2
  exact (List.dropWhile_sublist isWS).subset h2

lemma collapseAux_eq_self_of_not_mem {l : List Char} (h : '\n' ∉ l) :
    ∀ b, collapseAux b l = l := by
  induction l with
  | nil => intro b; rfl
  | cons c cs ih =>
    intro b
    have hc : ¬ c = '\n' := fun hc => h (hc ▸ List.mem_cons_self c cs)
    rw [show collapseAux b (c :: cs) = c :: collapseAux false cs from by
      simp [collapseAux, hc]]
    rw [ih (fun hm => h (List.mem_cons_of_mem c hm)) false]

lemma cleanSegment_eq_of_no_newline {s : List Char} (h : '\n' ∉ s) :
    cleanSegment s = stripMarker (trim s) := by
  unfold cleanSegment
  rw [show collapseNewlines (trim s) = trim s from
    collapseAux_eq_self_of_not_mem (fun hm => h (mem_of_mem_trim hm)) false]

/-- C4. The question parser is exactly the spec's description — split
on newline, trim, strip a leading `<digits>.<whitespace>` marker, discard
empties (the collapse step is a no-op after the split) — and it yields the
spec's outputs on the three example inputs. -/
theorem parseQuestions_correct :
    (∀ raw : List Char, parseQuestions raw = parseQuestionsSpec raw) ∧
    parseQuestions ("1. What is X?\n\n2. Why Y?\n").toList =
      [("What is X?").toList, ("Why Y?").toList] ∧
    parseQuestions ("\n\n").toList = [] ∧
    parseQuestions ("No markers here\n  second line  ").toList =
      [("No markers here").toList, ("second line").toList] := by
  refine ⟨?_, by decide, by decide, by decide⟩
  intro raw
  unfold parseQuestions parseQuestionsSpec
  rw [List.map_congr_left (fun s hs => cleanSegment_eq_of_no_newline
    (mem_splitNL_no_newline raw s hs))]

lemma mem_of_mem_stripMarker {a : Char} {l : List Char} (h : a ∈ stripMarker l) : a ∈ l := by
  unfold stripMarker at h
  by_cases hd : (l.takeWhile isDigitCh).isEmpty
  · rwa [if_pos hd] at h
  · rw [if_neg hd] at h
    by_cases hdot : (l.drop (l.takeWhile isDigitCh).length).head? = some '.'
    · rw [if_pos hdot] at h
      by_cases hws : (((l.drop (l.takeWhile isDigitCh).length).tail).takeWhile isWS).isEmpty
      · rwa [if_pos hws] at h
      · rw [if_neg hws] at h
        have h2 := (List.dropWhile_sublist isWS).subset h
        exact List.mem_of_mem_drop (List.mem_of_mem_tail h2)
    · rwa [if_neg hdot] at h

/-- C10. No string emitted by the question parser contains a newline
character: the parser splits on newline first, and the later cleaning
steps only remove characters. -/
theorem parseQuestions_no_newline :
    ∀ (raw q : List Char), q ∈ parseQuestions raw → '\n' ∉ q := by
  intro raw q hq
  have hq2 := List.mem_of_mem_filter hq
  rcases List.mem_map.mp hq2 with ⟨s, hs, rfl⟩
  have hsn : '\n' ∉ s := mem_splitNL_no_newline raw s hs
  rw [cleanSegment_eq_of_no_newline hsn]
  intro hmem
  exact hsn (mem_of_mem_trim (mem_of_mem_stripMarker hmem))

/-- Witness for `parseQuestions_no_newline` at a concrete parse. -/
theorem parseQuestions_no_newline_witness :
    ("What is X?").toList ∈ parseQuestions ("1. What is X?\n").toList ∧
    '\n' ∉ ("What is X?").toList :=
  ⟨by decide, parseQuestions_no_newline (("1. What is X?\n").toList)
    (("What is X?").toList) (by decide)⟩

/-! Section: Cache lemmas
-/

lemma decodeDocList_encode (docs : List Document) :
    decodeDocList (docs.map encodeDoc) = some docs := by
  induction docs with
  | nil => rfl
  | cons d ds ih =>
    rw [List.map_cons]
    rw [show decodeDocList (encodeDoc d :: ds.map encodeDoc) =
      (match decodeDoc (encodeDoc d), decodeDocList (ds.map encodeDoc) with
       | some d, some ds => some (d :: ds)
       | _, _ => none) from rfl]
    rw [show decodeDoc (encodeDoc d) = some d from rfl, ih]

/-- C6. Cache round-trip: writing a document set under a fingerprint
and reading that fingerprint back returns the same document set,
field-for-field (content and metadata of every document preserved). -/
theorem cacheGet_cachePut :
    ∀ (st : CacheStore) (f : String) (docs : List Document),
      cacheGet (cachePut st f docs) f = some docs := by
  intro st f docs
  unfold cacheGet cachePut
  rw [show List.lookup f ((f, some (encodeDocs docs)) :: st) = some (some (encodeDocs docs))
    from by simp [List.lookup]]
  unfold decodeDocs encodeDocs
  exact decodeDocList_encode docs

/-- C7. When the cache entry for the fingerprint is missing or
unparsable (`cacheGet` is a miss), ingestion does not raise: it falls back
to the full load-plus-preprocess, stores the result under the fingerprint,
and returns the freshly loaded documents. -/
theorem loadDocuments_miss :
    ∀ (rawDocs : List Document) (fp : String) (st : CacheStore),
      cacheGet st fp = none →
      loadDocuments true rawDocs fp st =
        (preProcessDocuments rawDocs, cachePut st fp (preProcessDocuments rawDocs)) := by
  intro rawDocs fp st h
  unfold loadDocuments
  rw [if_neg (by simp)]
  rw [h]

/-- Witness for `loadDocuments_miss`: a store whose only entry for the
fingerprint is unparsable. -/
theorem loadDocuments_miss_witness :
    cacheGet [(("fp1" : String), none)] ("fp1") = none ∧
    loadDocuments true [sampleDoc0] ("fp1") [(("fp1" : String), none)] =
      (preProcessDocuments [sampleDoc0],
        cachePut [(("fp1" : String), none)] ("fp1") (preProcessDocuments [sampleDoc0])) :=
  ⟨by rfl, loadDocuments_miss [sampleDoc0] ("fp1") [(("fp1" : String), none)] (by rfl)⟩

/-- C9. With caching opted out, ingestion is a pure load-then-preprocess:
for every cache store and every fingerprint value the result is the
preprocessed loader output and the cache store is returned unchanged — no
entry is read, added or modified. -/
theorem loadDocuments_no_cache :
    ∀ (rawDocs : List Document) (fp : String) (st : CacheStore),
      loadDocuments false rawDocs fp st = (preProcessDocuments rawDocs, st) := by
  intro rawDocs fp st
  rfl

/-! Section: Fingerprint lemmas
-/

lemma chDigit_digitCh {d : Nat} (h : d < 10) : chDigit (digitCh d) = d := by
  interval_cases d <;> rfl

lemma ofDigits_natToCharsAux :
    ∀ (fuel n : Nat), n ≤ fuel →
      Nat.ofDigits 10 ((natToCharsAux fuel n).map chDigit) = n := by
  intro fuel
  induction fuel with
  | zero =>
    intro n hn
    interval_cases n
    rfl
  | succ fuel ih =>
    intro n hn
    match n with
    | 0 => rfl
    | m + 1 =>
      rw [show natToCharsAux (fuel + 1) (m + 1) =
        digitCh ((m + 1) % 10) :: natToCharsAux fuel ((m + 1) / 10) from rfl]
      rw [List.map_cons, Nat.ofDigits_cons]
      rw [chDigit_digitCh (Nat.mod_lt _ (by norm_num))]
      rw [ih ((m + 1) / 10) (by
        have h1 : (m + 1) / 10 < m + 1 := Nat.div_lt_self (Nat.succ_pos m) (by norm_num)
        omega)]
      omega

lemma charsToNat_natToChars (n : Nat) : charsToNat (natToChars n) = n := by
  by_cases h0 : n = 0
  · subst h0
    decide
  · unfold natToChars charsToNat
    rw [if_neg h0, List.map_reverse, List.reverse_reverse]
    exact ofDigits_natToCharsAux n n le_rfl

lemma natToChars_injective : Function.Injective natToChars := by
  intro m n h
  rw [← charsToNat_natToChars m, ← charsToNat_natToChars n, h]

lemma joinCommaTail_append (A B : List (List Char)) :
    joinCommaTail (A ++ B) = joinCommaTail A ++ joinCommaTail B := by
  induction A with
  | nil => rfl
  | cons a A ih => simp [joinCommaTail, ih]

lemma joinComma_mid_cancel {M T : List (List Char)} {x y : List Char}
    (h : joinComma (M ++ x :: T) = joinComma (M ++ y :: T)) : x = y := by
  cases M with
  | nil =>
    simp only [List.nil_append, joinComma] at h
    exact List.append_cancel_right h
  | cons a M =>
    simp only [List.cons_append, joinComma] at h
    have h2 := List.append_cancel_left h
    rw [joinCommaTail_append, joinCommaTail_append] at h2
    have h3 := List.append_cancel_left h2
    simp only [joinCommaTail] at h3
    exact List.append_cancel_right (List.cons.inj h3).2

lemma map_fileInfo_of_map_keyOf {dir : List Char} {es1 es2 : List FileEntry}
    (h : es1.map keyOf = es2.map keyOf) :
    es1.map (fileInfo dir) = es2.map (fileInfo dir) := by
  have h1 : es1.map (fileInfo dir) =
      (es1.map keyOf).map (fun k => absPath dir k.1 ++ ':' :: natToChars k.2) := by
    rw [List.map_map]; rfl
  have h2 : es2.map (fileInfo dir) =
      (es2.map keyOf).map (fun k => absPath dir k.1 ++ ':' :: natToChars k.2) := by
    rw [List.map_map]; rfl
  rw [h1, h2, h]

/-- C8 (amended). The fingerprint is a function of the directory's
location together with the enumerated `(relative path, mtime)` list:
(1) two enumerations of the same directory that agree on every file's
relative path and modification time — in particular ones that differ only
in file contents — yield the same fingerprint, and
(2) under an injective digest, changing any one file's modification time
changes the fingerprint. -/
theorem getDirectoryHash_mtime_only :
    (∀ (h : List Char → List Char) (dir : List Char) (es1 es2 : List FileEntry),
        es1.map keyOf = es2.map keyOf →
        getDirectoryHash h dir es1 = getDirectoryHash h dir es2) ∧
    (∀ h : List Char → List Char, Function.Injective h →
      ∀ (dir : List Char) (A B : List FileEntry) (e e' : FileEntry),
        e.relPath = e'.relPath → e.mtimeMs ≠ e'.mtimeMs →
        getDirectoryHash h dir (A ++ e :: B) ≠ getDirectoryHash h dir (A ++ e' :: B)) := by
  constructor
  · intro h dir es1 es2 hkey
    unfold getDirectoryHash getDirectoryHashInput
    rw [map_fileInfo_of_map_keyOf hkey]
  · intro h hinj dir A B e e' hrel hne heq
    have hin : getDirectoryHashInput dir (A ++ e :: B) =
        getDirectoryHashInput dir (A ++ e' :: B) := hinj heq
    unfold getDirectoryHashInput at hin
    rw [List.map_append, List.map_cons, List.map_append, List.map_cons] at hin
    have hfi := joinComma_mid_cancel hin
    unfold fileInfo at hfi
    rw [hrel] at hfi
    have h2 := List.append_cancel_left hfi
    exact hne (natToChars_injective (List.cons.inj h2).2)

/-- Witness for `getDirectoryHash_mtime_only`: editing a file's content
(same mtime) leaves the fingerprint unchanged, while bumping its mtime
changes it. -/
theorem getDirectoryHash_mtime_only_witness :
    getDirectoryHash id (("/data").toList) [sampleEntry] =
      getDirectoryHash id (("/data").toList) [sampleEntryEdited] ∧
    getDirectoryHash id (("/data").toList) [sampleEntry] ≠
      getDirectoryHash id (("/data").toList) [sampleEntryLater] :=
  ⟨getDirectoryHash_mtime_only.1 id (("/data").toList) [sampleEntry] [sampleEntryEdited]
      (by decide),
   getDirectoryHash_mtime_only.2 id (fun _ _ hab => hab) (("/data").toList) [] []
      sampleEntry sampleEntryLater (by decide) (by decide)⟩

/-- C8 counterexample. As stated, the claim is false: the fingerprint
input embeds the absolute file paths glob returns, so two directories at
different locations with identical `(relative path, mtime)` file sets get
different digest inputs — here with the identity digest, the fingerprints
differ on the very same entry list. -/
theorem getDirectoryHash_location_dependent :
    getDirectoryHash id (("/a").toList) [sampleEntry] ≠
      getDirectoryHash id (("/b").toList) [sampleEntry] := by
  decide

/-! Section: Batch-runner lemmas
-/

lemma foldl_batchStep_ok (docs : List Document) (llm : List Char → Except Unit (List Char))
    (n : Nat) :
    ∀ (order : List Nat) (st : BatchState),
      (∀ i ∈ order, ∃ qs, okResultAt docs llm n i = some qs) →
      (order.foldl (batchStep docs llm n) st).questions =
          st.questions ++ order.map (genResultAt docs llm n) ∧
      (order.foldl (batchStep docs llm n) st).failures = st.failures ∧
      (order ≠ [] → (order.foldl (batchStep docs llm n) st).fileContent =
          some (st.questions ++ order.map (genResultAt docs llm n))) := by
  intro order
  induction order with
  | nil =>
    intro st _
    exact ⟨by simp, rfl, fun hne => absurd rfl hne⟩
  | cons i rest ih =>
    intro st h
    obtain ⟨qs, hqs⟩ := h i (List.mem_cons_self i rest)
    cases hd : docs[i]? with
    | none => exact absurd hqs (by simp [okResultAt, hd])
    | some d =>
      cases hg : generateQuestions llm d n with
      | error e => exact absurd hqs (by simp [okResultAt, hd, hg])
      | ok qs' =>
        have hstep : batchStep docs llm n st i =
            ⟨st.questions ++ [qs'], some (st.questions ++ [qs']), st.failures⟩ := by
          simp [batchStep, hd, hg]
        have hgra : genResultAt docs llm n i = qs' := by
          simp [genResultAt, hd, hg, okOr]
        have hrest : ∀ j ∈ rest, ∃ qs, okResultAt docs llm n j = some qs :=
          fun j hj => h j (List.mem_cons_of_mem i hj)
        obtain ⟨ihq, ihf, ihfc⟩ :=
          ih ⟨st.questions ++ [qs'], some (st.questions ++ [qs']), st.failures⟩ hrest
        rw [List.foldl_cons, hstep]
        have hqgoal : (List.foldl (batchStep docs llm n)
              ⟨st.questions ++ [qs'], some (st.questions ++ [qs']), st.failures⟩
              rest).questions =
            st.questions ++ List.map (genResultAt docs llm n) (i :: rest) := by
          rw [ihq]
          simp only [List.map_cons, hgra]
          rw [List.append_assoc]
          rfl
        refine ⟨hqgoal, ihf, ?_⟩
        intro _
        cases hr : rest with
        | nil =>
          subst hr
          simp only [List.foldl_nil, List.map_cons, List.map_nil, hgra]
        | cons j rest' =>
          subst hr
          rw [ihfc (by simp), ← ihq, hqgoal]

lemma range_map_genResultAt (docs : List Document) (llm : List Char → Except Unit (List Char))
    (n : Nat) :
    (List.range docs.length).map (genResultAt docs llm n) =
      docs.map (fun d => okOr (generateQuestions llm d n)) := by
  apply List.ext_getElem
  · simp
  · intro i h1 h2
    rw [List.getElem_map, List.getElem_map, List.getElem_range]
    have hlt : i < docs.length := by simpa using h2
    unfold genResultAt
    rw [List.getElem?_eq_getElem hlt]

/-- C2 (amended). When every generation task succeeds and the
completion calls resolve in order `order` (any permutation of the document
indices), the final result has exactly one entry per input document and
its entries are the per-document question lists *in completion order* —
entry `k` is the list for document `order.get k`, a permutation of the
per-document lists.  Entry `i` equals document `i`'s list only when the
completion order is the input order; the last file write persists the full
array. -/
theorem runBatch_completion_order :
    ∀ (docs : List Document) (llm : List Char → Except Unit (List Char)) (n : Nat)
      (order : List Nat),
      order.Perm (List.range docs.length) →
      (∀ d ∈ docs, ∃ qs, generateQuestions llm d n = Except.ok qs) →
      (runBatch docs llm n order).questions = order.map (genResultAt docs llm n) ∧
      (runBatch docs llm n order).questions.length = docs.length ∧
      (runBatch docs llm n order).questions.Perm
        (docs.map (fun d => okOr (generateQuestions llm d n))) ∧
      (docs ≠ [] → (runBatch docs llm n order).fileContent =
        some ((runBatch docs llm n order).questions)) := by
  intro docs llm n order hperm hall
  have hsucc : ∀ i ∈ order, ∃ qs, okResultAt docs llm n i = some qs := by
    intro i hi
    have hlt : i < docs.length := List.mem_range.mp (hperm.mem_iff.mp hi)
    obtain ⟨qs, hqs⟩ := hall (docs.get ⟨i, hlt⟩) (List.get_mem docs i hlt)
    refine ⟨qs, ?_⟩
    simp only [List.get_eq_getElem] at hqs
    simp [okResultAt, List.getElem?_eq_getElem hlt, hqs]
  obtain ⟨hq, hf, hfc⟩ := foldl_batchStep_ok docs llm n order ⟨[], none, 0⟩ hsucc
  have hq' : (runBatch docs llm n order).questions = order.map (genResultAt docs llm n) := by
    simpa [runBatch] using hq
  refine ⟨hq', ?_, ?_, ?_⟩
  · rw [hq', List.length_map, hperm.length_eq, List.length_range]
  · rw [hq', ← range_map_genResultAt docs llm n]
    exact hperm.map (genResultAt docs llm n)
  · intro hne
    have hol : order ≠ [] := by
      intro h0
      rw [h0] at hperm
      have := hperm.length_eq
      simp only [List.length_nil, List.length_range] at this
      exact hne (List.length_eq_zero.mp this.symm)
    rw [hq']
    have := hfc hol
    simpa [runBatch] using this

/-- Witness for `runBatch_completion_order`: two documents, both tasks
succeeding, completion order `[1, 0]` — the result still has one entry per
document. -/
theorem runBatch_completion_order_witness :
    (runBatch [sampleDoc0, sampleDoc1] llmAllOk 5 [1, 0]).questions.length = 2 :=
  (runBatch_completion_order [sampleDoc0, sampleDoc1] llmAllOk 5 [1, 0]
    (by
      show ([1, 0] : List Nat).Perm [0, 1]
      exact List.Perm.swap 0 1 [])
    (by
      intro d hd
      fin_cases hd <;> exact ⟨_, rfl⟩)).2.1

/-- C2 counterexample. With two documents both succeeding and the
completion order `[1, 0]`, the persisted outer array is *not*
`[questions of document 0, questions of document 1]`: entry 0 holds
document 1's questions.  The claim's "entry `i` is input document `i`'s
list regardless of completion order" is false of the code. -/
theorem runBatch_not_input_order :
    (runBatch [sampleDoc0, sampleDoc1] llmAllOk 5 [1, 0]).failures = 0 ∧
    List.Perm [1, 0] (List.range [sampleDoc0, sampleDoc1].length) ∧
    (runBatch [sampleDoc0, sampleDoc1] llmAllOk 5 [1, 0]).questions ≠
      [genResultAt [sampleDoc0, sampleDoc1] llmAllOk 5 0,
       genResultAt [sampleDoc0, sampleDoc1] llmAllOk 5 1] := by
  refine ⟨by decide, ?_, by decide⟩
  have : ([1, 0] : List Nat).Perm [0, 1] := List.Perm.swap 0 1 []
  simpa using this

lemma foldl_batchStep_counts (docs : List Document) (llm : List Char → Except Unit (List Char))
    (n : Nat) :
    ∀ (order : List Nat) (st : BatchState),
      (order.foldl (batchStep docs llm n) st).questions =
          st.questions ++ order.filterMap (okResultAt docs llm n) ∧
      (order.foldl (batchStep docs llm n) st).failures =
          st.failures + order.countP (fun i => taskFails docs llm n i) := by
  intro order
  induction order with
  | nil => intro st; simp
  | cons i rest ih =>
    intro st
    rw [List.foldl_cons]
    cases hd : docs[i]? with
    | none =>
      have hstep : batchStep docs llm n st i = st := by simp [batchStep, hd]
      have hok : okResultAt docs llm n i = none := by simp [okResultAt, hd]
      have htf : taskFails docs llm n i = false := by simp [taskFails, hd]
      obtain ⟨ihq, ihf⟩ := ih st
      rw [hstep]
      constructor
      · rw [ihq, List.filterMap_cons, hok]
      · rw [ihf, List.countP_cons, htf]
        simp
    | some d =>
      cases hg : generateQuestions llm d n with
      | ok qs =>
        have hstep : batchStep docs llm n st i =
            ⟨st.questions ++ [qs], some (st.questions ++ [qs]), st.failures⟩ := by
          simp [batchStep, hd, hg]
        have hok : okResultAt docs llm n i = some qs := by simp [okResultAt, hd, hg]
        have htf : taskFails docs llm n i = false := by simp [taskFails, hd, hg]
        obtain ⟨ihq, ihf⟩ := ih ⟨st.questions ++ [qs], some (st.questions ++ [qs]), st.failures⟩
        rw [hstep]
        constructor
        · rw [ihq, List.filterMap_cons, hok, List.append_assoc]
          rfl
        · rw [ihf, List.countP_cons, htf]
          simp
      | error e =>
        have hstep : batchStep docs llm n st i =
            ⟨st.questions, st.fileContent, st.failures + 1⟩ := by
          simp [batchStep, hd, hg]
        have hok : okResultAt docs llm n i = none := by simp [okResultAt, hd, hg]
        have htf : taskFails docs llm n i = true := by simp [taskFails, hd, hg]
        obtain ⟨ihq, ihf⟩ := ih ⟨st.questions, st.fileContent, st.failures + 1⟩
        rw [hstep]
        constructor
        · rw [ihq, List.filterMap_cons, hok]
        · rw [ihf, List.countP_cons, htf]
          show st.failures + 1 + List.countP (fun i => taskFails docs llm n i) rest =
            st.failures + (List.countP (fun i => taskFails docs llm n i) rest + 1)
          omega

lemma foldl_batchStep_persist (docs : List Document) (llm : List Char → Except Unit (List Char))
    (n : Nat) :
    ∀ (order : List Nat) (st : BatchState),
      st.fileContent = some st.questions ∨ (st.fileContent = none ∧ st.questions = []) →
      (order.foldl (batchStep docs llm n) st).fileContent =
          some ((order.foldl (batchStep docs llm n) st).questions) ∨
        ((order.foldl (batchStep docs llm n) st).fileContent = none ∧
          (order.foldl (batchStep docs llm n) st).questions = []) := by
  intro order
  induction order with
  | nil => intro st h; exact h
  | cons i rest ih =>
    intro st h
    rw [List.foldl_cons]
    apply ih
    cases hd : docs[i]? with
    | none => simpa [batchStep, hd] using h
    | some d =>
      cases hg : generateQuestions llm d n with
      | ok qs => left; simp [batchStep, hd, hg]
      | error e => simpa [batchStep, hd, hg] using h

/-- C3 (amended). On a run where some completion calls fail, every
successfully completed task's entry is still pushed and persisted (the
final array is exactly the successful results in completion order, and the
output file holds it once any write happened), and the failure count of
the run equals the number of failing tasks — but the aggregate
`Promise.all` rejects, so the closing success summary is *not* printed:
there is no terminal line reporting success and failure counts. -/
theorem runBatch_partial_failure :
    ∀ (docs : List Document) (llm : List Char → Except Unit (List Char)) (n : Nat)
      (order : List Nat),
      (runBatch docs llm n order).questions =
          order.filterMap (okResultAt docs llm n) ∧
      (runBatch docs llm n order).failures =
          order.countP (fun i => taskFails docs llm n i) ∧
      ((runBatch docs llm n order).failures ≠ 0 →
        batchSummary docs llm n order = none) ∧
      ((runBatch docs llm n order).fileContent =
          some ((runBatch docs llm n order).questions) ∨
        ((runBatch docs llm n order).fileContent = none ∧
          (runBatch docs llm n order).questions = [])) := by
  intro docs llm n order
  obtain ⟨hq, hf⟩ := foldl_batchStep_counts docs llm n order ⟨[], none, 0⟩
  refine ⟨by simpa using hq, by simpa using hf, ?_, ?_⟩
  · intro hne
    unfold batchSummary
    simp only [if_neg hne]
  · exact foldl_batchStep_persist docs llm n order ⟨[], none, 0⟩ (Or.inr ⟨rfl, rfl⟩)

/-- Witness for `runBatch_partial_failure`: three documents, the
completion call failing exactly for document 1 — no summary is printed. -/
theorem runBatch_partial_failure_witness :
    (runBatch [sampleDoc0, sampleDoc1, sampleDoc2] llmFailDoc1 5 [0, 1, 2]).failures ≠ 0 ∧
    batchSummary [sampleDoc0, sampleDoc1, sampleDoc2] llmFailDoc1 5 [0, 1, 2] = none :=
  ⟨by decide, (runBatch_partial_failure [sampleDoc0, sampleDoc1, sampleDoc2]
      llmFailDoc1 5 [0, 1, 2]).2.2.1 (by decide)⟩

/-- C3 counterexample. Three documents, the completion call fails for
document index 1 only: the successful entries for documents 0 and 2 are in
the persisted output, but the run produces *no* final summary at all
(`batchSummary = none`) — in particular no "2 succeeded, 1 failed" line:
`Promise.all` rejects and the success path with its count report is
skipped. -/
theorem runBatch_no_failure_summary :
    batchSummary [sampleDoc0, sampleDoc1, sampleDoc2] llmFailDoc1 5 [0, 1, 2] = none ∧
    (runBatch [sampleDoc0, sampleDoc1, sampleDoc2] llmFailDoc1 5 [0, 1, 2]).failures = 1 ∧
    (runBatch [sampleDoc0, sampleDoc1, sampleDoc2] llmFailDoc1 5 [0, 1, 2]).questions =
      [[("Q?").toList], [("Q?").toList]] ∧
    (runBatch [sampleDoc0, sampleDoc1, sampleDoc2] llmFailDoc1 5 [0, 1, 2]).fileContent =
      some [[("Q?").toList], [("Q?").toList]] := by
  decide

/-- C1. The prompt builder substitutes the document content for its
`{document}` placeholder, but the question target is substituted for the
pattern `{questions}`, which does not occur in the template — the
template's documented `{numQuestions}` placeholder survives verbatim and
the numeric target never appears in the prompt, unlike the substitution
the spec (and the template's own doc comment) describe. -/
theorem buildPrompt_wrong_placeholder :
    hasSub (("Sample document.").toList) (buildPrompt (("Sample document.").toList) 5) = true ∧
    hasSub (("{document}").toList) (buildPrompt (("Sample document.").toList) 5) = false ∧
    hasSub (("{numQuestions}").toList) (buildPrompt (("Sample document.").toList) 5) = true ∧
    hasSub (("5").toList) (buildPrompt (("Sample document.").toList) 5) = false ∧
    buildPrompt (("Sample document.").toList) 5 ≠
      buildPromptSpec (("Sample document.").toList) 5 ∧
    hasSub (("5").toList) (buildPromptSpec (("Sample document.").toList) 5) = true ∧
    hasSub (("{numQuestions}").toList)
      (buildPromptSpec (("Sample document.").toList) 5) = false := by
  decide

end QuestGen
